import Mathlib

/-!
Verification of the `exportenv` repository: a `.env` file parser with
multi-file merging, `${VAR}` expansion and shell-consumable output.

The repository holds two variants of the tool:
* the multi-file variant (`src/cmd/exportenv/main.go`), embedded below in
  namespace `Exportenv`;
* the simple single-file variant (the Go file under `src/unnamed`, with
  `cleanValue`, `displayEnvVars` and the `--unset` mode), embedded in
  namespace `SimpleExportenv`.

Strings are modelled as Lean `String` (a wrapper around `List Char`);
Go `map[string]string` is modelled as an association list with unique keys,
with `lookupGo`/`insertGo` giving Go-map read/update semantics.  Where the
Go code ranges over a map (whose iteration order is unspecified), the order
is either an explicit parameter of the embedding or quantified over in the
theorems.  Go indexes bytes; all inputs considered here are ASCII, where
byte and character indexing coincide, and `unicode.IsSpace` agrees with the
ASCII space set used by `goIsSpace`.
-/

/-- Named characters, written via code points where a literal would be
awkward: NUL (the zero `rune`), double quote, apostrophe, backtick,
braces and backslash. -/
def charNul : Char := Char.ofNat 0

/-- Double quote character. -/
def charDQ : Char := Char.ofNat 34

/-- Apostrophe (single quote) character. -/
def charApos : Char := Char.ofNat 39

/-- Backtick character. -/
def charBacktick : Char := Char.ofNat 96

/-- Opening brace character. -/
def charLBrace : Char := Char.ofNat 123

/-- Closing brace character. -/
def charRBrace : Char := Char.ofNat 125

/-- Backslash character. -/
def charBackslash : Char := Char.ofNat 92

/-- ASCII whitespace, as recognised by Go's `unicode.IsSpace` on ASCII
input: space, tab, newline, carriage return, vertical tab, form feed. -/
def goIsSpace (c : Char) : Bool :=
  c == ' ' || c == '\t' || c == '\n' || c == '\r' ||
  c == Char.ofNat 11 || c == Char.ofNat 12

/-- Character-list version of Go's `strings.TrimSpace`: drop whitespace
from both ends. -/
def trimChars (l : List Char) : List Char :=
  ((l.dropWhile goIsSpace).reverse.dropWhile goIsSpace).reverse

/-- Go's `strings.TrimSpace` on strings. -/
def goTrimSpace (s : String) : String :=
  String.mk (trimChars s.toList)

/-- Read access `m[k]` of a Go `map[string]string` modelled as an
association list: the value at the first matching key. -/
def lookupGo : List (String × String) → String → Option String
  | [], _ => none
  | (k1, v1) :: rest, k => if k1 = k then some v1 else lookupGo rest k

/-- Write access `m[k] = v` of a Go map: replace the value of an existing
key in place, or append a new binding. -/
def insertGo : List (String × String) → String → String → List (String × String)
  | [], k, v => [(k, v)]
  | (k1, v1) :: rest, k, v =>
    if k1 = k then (k1, v) :: rest else (k1, v1) :: insertGo rest k v

/-- First-defined-wins choice on optional values: used to state which
file's definition of a key survives a merge. -/
def optOr : Option String → Option String → Option String
  | some v, _ => some v
  | none, o => o

/-- Go's `strings.ReplaceAll` for a two-character pattern `[a, b]`
replaced by the single character `rep` (covers the escape rewrites
`\"`, `\'`, `` \` `` and `\n` used by the sources): leftmost,
non-overlapping replacement. -/
def replacePair (a b rep : Char) : List Char → List Char
  | [] => []
  | [x] => [x]
  | x :: y :: rest =>
    if x = a ∧ y = b then rep :: replacePair a b rep rest
    else x :: replacePair a b rep (y :: rest)

/-- Go `os`: special shell parameter characters accepted after `$`
(`isShellSpecialVar` in `os/env.go`, which `os.Expand` consults). -/
def isShellSpecialVar (c : Char) : Bool :=
  c == '*' || c == '#' || c == '$' || c == '@' || c == '!' || c == '?' ||
  ('0' ≤ c && c ≤ '9')

/-- Go `os`: characters allowed in an unbraced `$name`
(`isAlphaNum` in `os/env.go`). -/
def isAlphaNum (c : Char) : Bool :=
  c == '_' || ('a' ≤ c && c ≤ 'z') || ('A' ≤ c && c ≤ 'Z') || ('0' ≤ c && c ≤ '9')

/-- Brace-scanning arm of Go's `getShellName`, applied to the characters
after `${`: find the first closing brace; an immediate closing brace is
the bad-syntax case eating three characters in total, a missing closing
brace eats only the brace pair's opener. The returned width counts
characters after the `$`. -/
def getShellNameBrace (t : List Char) : List Char × Nat :=
  match t.findIdx? (· == charRBrace) with
  | some 0 => ([], 2)
  | some j => (t.take j, j + 2)
  | none => ([], 1)

/-- Go's `getShellName` (`os/env.go`): given the characters after a `$`,
return the referenced name and how many characters it spans. -/
def getShellName (s : List Char) : List Char × Nat :=
  match s with
  | [] => ([], 0)
  | c0 :: t =>
    if c0 = charLBrace then
      match t with
      | c1 :: c2 :: _ =>
        if isShellSpecialVar c1 ∧ c2 = charRBrace then ([c1], 3)
        else getShellNameBrace t
      | _ => getShellNameBrace t
    else if isShellSpecialVar c0 then ([c0], 1)
    else (s.takeWhile isAlphaNum, (s.takeWhile isAlphaNum).length)

/-- Character-list core of Go's `os.Expand`: scan for `$`, resolve the
following name via `getShellName` and substitute `mapping`'s answer;
invalid syntax after `$` is eaten, a `$` followed by no name (or at the
very end) is kept literally.  The extra `Nat` bounds the number of loop
iterations so the recursion is structural; every iteration consumes at
least one character, so with the input's length as fuel the zero-fuel
clause is unreachable and the function agrees with Go's loop. -/
def osExpandAux (mapping : String → String) : Nat → List Char → List Char
  | _, [] => []
  | 0, l => l
  | fuel + 1, c :: rest =>
    if c = '$' ∧ rest ≠ [] then
      let nw := getShellName rest
      if nw.1 = [] ∧ nw.2 > 0 then osExpandAux mapping fuel (rest.drop nw.2)
      else if nw.1 = [] then c :: osExpandAux mapping fuel (rest.drop nw.2)
      else (mapping (String.mk nw.1)).toList ++ osExpandAux mapping fuel (rest.drop nw.2)
    else c :: osExpandAux mapping fuel rest

/-- Go's `os.Expand` on strings. -/
def osExpand (s : String) (mapping : String → String) : String :=
  String.mk (osExpandAux mapping s.toList.length s.toList)

namespace Exportenv

/-- Start character of a key in the regexp
`^\s*([A-Za-z_][A-Za-z0-9_]*)\s*=\s*(.*)$` of `parseLine`. -/
def isKeyStart (c : Char) : Bool :=
  c == '_' || ('A' ≤ c && c ≤ 'Z') || ('a' ≤ c && c ≤ 'z')

/-- Continuation character of a key in the same regexp. -/
def isKeyChar (c : Char) : Bool :=
  isKeyStart c || ('0' ≤ c && c ≤ '9')

/-- Matching of `parseLine`'s regexp
`^\s*([A-Za-z_][A-Za-z0-9_]*)\s*=\s*(.*)$` against a line, returning the
two submatches.  The pattern is deterministic: after the optional leading
whitespace the key is the maximal run of key characters starting with a
letter or underscore (the key class, the whitespace class and `=` are
pairwise disjoint, so no backtracking arises), then optional whitespace,
then `=`, then optional whitespace (greedy), then the rest of the line is
the second group.  Lines produced by `bufio.Scanner` contain no newline,
so `.` and `$` behave plainly. -/
def keyValueMatch (line : List Char) : Option (List Char × List Char) :=
  let rest := line.dropWhile goIsSpace
  match rest with
  | [] => none
  | c :: _ =>
    if isKeyStart c then
      let key := rest.takeWhile isKeyChar
      let rest2 := (rest.dropWhile isKeyChar).dropWhile goIsSpace
      match rest2 with
      | '=' :: rest3 => some (key, rest3.dropWhile goIsSpace)
      | _ => none
    else none

/-- Scanner of `removeInlineComment`: copy characters, tracking whether a
double or single quote is open; a `#` outside quotes truncates the rest.
The quote state starts closed with a NUL quote character, exactly as in
the Go code. -/
def removeInlineCommentAux : List Char → Bool → Char → List Char
  | [], _, _ => []
  | c :: rest, inQuote, quoteChar =>
    if (c = charDQ ∨ c = charApos) ∧ inQuote = false then
      c :: removeInlineCommentAux rest true c
    else if c = quoteChar ∧ inQuote = true then
      c :: removeInlineCommentAux rest false quoteChar
    else if c = '#' ∧ inQuote = false then []
    else c :: removeInlineCommentAux rest inQuote quoteChar

/-- Go `removeInlineComment`: strip a `#` comment that occurs outside
quotes, then trim the remainder. -/
def removeInlineComment (val : String) : String :=
  goTrimSpace (String.mk (removeInlineCommentAux val.toList false charNul))

/-- Result quadruple of Go's `parseLine`: key, value, whether the line
starts a multiline quoted value, and the opening quote character
(the zero rune when not a multiline start). -/
structure ParsedLine where
  key : String
  val : String
  multiline : Bool
  quoteType : Char
deriving DecidableEq

/-- Go `parseLine`: match the key/value regexp, strip inline comments,
and handle single-line quoted values (both quotes stripped, quote type
reported as the zero rune) versus multiline starts (leading quote
stripped, quote type reported). -/
def parseLine (line : String) : ParsedLine :=
  match keyValueMatch line.toList with
  | none => ⟨"", "", false, charNul⟩
  | some (key, val0) =>
    let val := removeInlineComment (String.mk val0)
    match val.toList with
    | [] => ⟨String.mk key, val, false, charNul⟩
    | c :: rest =>
      if c = charDQ ∨ c = charApos then
        if rest.getLast? = some c then
          ⟨String.mk key, String.mk rest.dropLast, false, charNul⟩
        else
          ⟨String.mk key, String.mk rest, true, c⟩
      else ⟨String.mk key, val, false, charNul⟩

/-- Go `isCommentOrEmpty`: blank line or line starting with `#`. -/
def isCommentOrEmpty (line : String) : Bool :=
  line.toList = [] || line.toList.head? = some '#'

/-- Go `expandVariables`: `os.Expand` against the environment map built
so far, undefined references resolving to the empty string. -/
def expandVariables (val : String) (envVars : List (String × String)) : String :=
  osExpand val (fun varName =>
    match lookupGo envVars varName with
    | some v => v
    | none => "")

/-- Per-file parser state of `parseEnvFile`: the current key, the
accumulated multiline value, the multiline flag, the opening quote
character, and the map built so far. -/
structure ParseState where
  key : String
  value : String
  multiline : Bool
  quoteType : Char
  envVars : List (String × String)

/-- Loop body of Go's `parseEnvFile` for one scanned line: trim, skip
comments and blanks, continue or close a multiline value, or parse a
fresh line and store its key/value pair — with the double-quote
expansion branch exactly as in the source (conditioned on the quote
type returned by `parseLine`). -/
def processEnvLine (st : ParseState) (raw : String) : ParseState :=
  let line := goTrimSpace raw
  if isCommentOrEmpty line then st
  else if st.multiline then
    if line.toList.getLast? = some st.quoteType then
      let value := removeInlineComment
        (st.value ++ "\n" ++ String.mk line.toList.dropLast)
      { st with value := value,
                envVars := insertGo st.envVars st.key value,
                multiline := false }
    else { st with value := st.value ++ "\n" ++ line }
  else
    let p := parseLine line
    if p.multiline then
      { st with key := p.key, value := p.val, multiline := true,
                quoteType := p.quoteType }
    else
      let val :=
        if p.quoteType = charDQ then
          String.mk (replacePair charBackslash 'n' '\n'
            (expandVariables p.val st.envVars).toList)
        else p.val
      { st with key := p.key, quoteType := p.quoteType,
                envVars := insertGo st.envVars p.key val }

/-- Initial state of a `parseEnvFile` pass: Go zero values. -/
def initParseState : ParseState :=
  ⟨"", "", false, charNul, []⟩

/-- Go `parseEnvFile` applied to the lines of a file (the successful-read
case; read failures are modelled at the `loadEnvFiles` level). -/
def parseEnvFile (fileLines : List String) : List (String × String) :=
  (fileLines.foldl processEnvLine initParseState).envVars

/-- Go `existsInMap`. -/
def existsInMap (m : List (String × String)) (key : String) : Bool :=
  (lookupGo m key).isSome

/-- Body of the inner loop of `loadEnvFiles` for a single binding of a
parsed file: set the variable only if it does not exist yet or override
is on. -/
def mergeStep (override : Bool) (acc : List (String × String))
    (kv : String × String) : List (String × String) :=
  if override = true ∨ existsInMap acc kv.1 = false then insertGo acc kv.1 kv.2
  else acc

/-- Inner loop of `loadEnvFiles`: fold one parsed file's bindings (in map
range order, supplied here as the list order) into the aggregate map. -/
def mergeFileVars (override : Bool) (envVars : List (String × String))
    (fileVars : List (String × String)) : List (String × String) :=
  fileVars.foldl (mergeStep override) envVars

/-- Merge phase of `loadEnvFiles` over the already-parsed per-file maps,
each given as its bindings in range order. -/
def loadEnvFilesMerge (override : Bool)
    (fileMaps : List (List (String × String))) : List (String × String) :=
  fileMaps.foldl (mergeFileVars override) []

/-- Recursive form of Go's `loadEnvFiles` loop over file paths: a file
that fails to open or read aborts the whole load with that error. The
filesystem is a map from path to either an error or the file's lines. -/
def loadEnvFilesGo (fs : String → Except String (List String)) :
    List String → Bool → List (String × String) →
    Except String (List (String × String))
  | [], _, acc => Except.ok acc
  | f :: rest, override, acc =>
    match fs f with
    | Except.error e => Except.error e
    | Except.ok fileLines =>
      loadEnvFilesGo fs rest override
        (mergeFileVars override acc (parseEnvFile fileLines))

/-- Go `loadEnvFiles`: default to `.env` when no files are given, then
load and merge each file in order. -/
def loadEnvFiles (fs : String → Except String (List String))
    (files : List String) (override : Bool) :
    Except String (List (String × String)) :=
  loadEnvFilesGo fs (if files.isEmpty then [".env"] else files) override []

/-- Go `parseCommandLineVars`: split each `-v` argument at the first `=`;
an argument without `=` maps the whole argument to the empty value. -/
def parseCommandLineVars (vars : List String) : List (String × String) :=
  vars.foldl (fun acc v =>
    match v.toList.findIdx? (· == '=') with
    | some p =>
      insertGo acc (String.mk (v.toList.take p)) (String.mk (v.toList.drop (p + 1)))
    | none => insertGo acc v "") []

/-- Go `mergeEnvVars`: write every command-line binding into the
aggregate map (command line wins). -/
def mergeEnvVars (envVars cmdVars : List (String × String)) :
    List (String × String) :=
  cmdVars.foldl (fun acc kv => insertGo acc kv.1 kv.2) envVars

/-- Go `expandEnvVars`: expand each value in place against the current
map state, visiting keys in the map's range order, which is supplied as
the explicit `order` parameter (Go map iteration order is unspecified).
The value expanded is the one current when the key is visited, and the
mapping consulted by `os.Expand` is the mutated map itself. -/
def expandEnvVars (order : List String) (envVars : List (String × String)) :
    List (String × String) :=
  order.foldl (fun acc key =>
    match lookupGo acc key with
    | none => acc
    | some value =>
      insertGo acc key (osExpand value (fun varName =>
        match lookupGo acc varName with
        | some v => v
        | none => ""))) envVars

/-- Go `sortEnvVars`: keys sorted ascending, rendered as `KEY=VALUE`. -/
def sortEnvVars (envVars : List (String × String)) : List String :=
  ((envVars.map Prod.fst).mergeSort (fun a b => a ≤ b)).map
    (fun k => k ++ "=" ++ ((lookupGo envVars k).getD ""))

/-- Escape of embedded double quotes performed by
`printExportableEnvVars` (`strings.ReplaceAll` with a one-character
pattern). -/
def escapeDQ (l : List Char) : List Char :=
  l.foldr (fun c acc =>
    if c = charDQ then charBackslash :: charDQ :: acc else c :: acc) []

/-- Go `printExportableEnvVars`: split each `KEY=VALUE` entry at the
first `=` and print `export KEY="VALUE"` with inner double quotes
escaped. -/
def printExportableEnvVars (sortedEnvVars : List String) : List String :=
  sortedEnvVars.map (fun v =>
    match v.toList.findIdx? (· == '=') with
    | none => "export " ++ v ++ "=" ++ String.mk [charDQ, charDQ]
    | some p =>
      "export " ++ String.mk (v.toList.take p) ++ "=" ++
        String.mk (charDQ :: escapeDQ (v.toList.drop (p + 1)) ++ [charDQ]))

/-- Output of `main` in the no-command case: load, merge command-line
variables, optionally expand (visiting keys in the aggregate list order,
one admissible range order), sort and print; a load error is reported
and nothing is printed. -/
def mainRun (fs : String → Except String (List String)) (envFiles : List String)
    (override noExpand : Bool) (vars : List String) :
    Except String (List String) :=
  match loadEnvFiles fs envFiles override with
  | Except.error e => Except.error e
  | Except.ok envVars =>
    let merged := mergeEnvVars envVars (parseCommandLineVars vars)
    let expanded :=
      if noExpand then merged
      else expandEnvVars (merged.map Prod.fst) merged
    Except.ok (printExportableEnvVars (sortEnvVars expanded))

end Exportenv

namespace SimpleExportenv

/-- Value submatch of the simple variant's regexp
`^\s*([^#=]+)\s*=\s*(.*?)(\s*#.*)?$` applied to the text after the `=`
and its surrounding whitespace: under leftmost-first semantics the lazy
second group is the shortest prefix whose remainder matches the optional
comment group `\s*#.*` anchored at the end, so the value is truncated at
the first position from which the rest of the line is whitespace
followed by `#`; with no such position the whole remainder is the
value. -/
def group2 : List Char → List Char
  | [] => []
  | c :: rest =>
    if ((c :: rest).dropWhile goIsSpace).head? = some '#' then []
    else c :: group2 rest

/-- Matching of the simple variant's `envLinePattern`
`^\s*([^#=]+)\s*=\s*(.*?)(\s*#.*)?$` against a line, returning the key
and value submatches.  Under leftmost-first semantics: the `=` consumed
by the pattern must be the line's first `=` (neither `\s*` nor `[^#=]+`
can cross an `=`), the characters before it must contain no `#` and
number at least one; the greedy `^\s*` keeps as much leading whitespace
as it can while leaving the first group nonempty, so the first group
starts at `min maxLead (p - 1)` where `maxLead` is the leading
whitespace run and `p` the index of the first `=`; the whitespace after
`=` is consumed greedily, and the value submatch is `group2` of what
remains. -/
def envLineMatch (line : List Char) : Option (List Char × List Char) :=
  match line.findIdx? (· == '=') with
  | none => none
  | some p =>
    if p = 0 then none
    else if (line.take p).any (· == '#') then none
    else
      let maxLead := (line.takeWhile goIsSpace).length
      let g1 := (line.take p).drop (min maxLead (p - 1))
      let r := (line.drop (p + 1)).dropWhile goIsSpace
      some (g1, group2 r)

/-- Go `cleanValue` of the simple variant: trim, strip a matching pair
of surrounding quotes (double, single or backtick), trim again, and
unescape `\"`, `\'` and `` \` ``.  The quote-stripping slice
`value[1 : len(value)-1]` is a Go slice expression that panics when
`1 > len(value)-1`; the panic is modelled as `none`. -/
def cleanValue (value0 : String) : Option String :=
  let cs := trimChars value0.toList
  if cs = [] then some (String.mk cs)
  else
    let f := cs.headD charNul
    let l := cs.getLastD charNul
    let stripped? : Option (List Char) :=
      if (f = charDQ ∧ l = charDQ) ∨ (f = charApos ∧ l = charApos) ∨
         (f = charBacktick ∧ l = charBacktick) then
        if 2 ≤ cs.length then some ((cs.drop 1).take (cs.length - 2)) else none
      else some cs
    match stripped? with
    | none => none
    | some cs2 =>
      let cs3 := trimChars cs2
      let cs4 := replacePair charBackslash charDQ charDQ cs3
      let cs5 := replacePair charBackslash charApos charApos cs4
      let cs6 := replacePair charBackslash charBacktick charBacktick cs5
      some (String.mk cs6)

/-- Loop body of the simple variant's `parseEnvFile` for one scanned
line: trim, skip blanks and comments, and store the trimmed key with the
cleaned value when the line pattern matches; a `cleanValue` panic aborts
the run (`none`). -/
def parseEnvStep (envVars : List (String × String)) (raw : String) :
    Option (List (String × String)) :=
  let line := goTrimSpace raw
  if line.toList = [] ∨ line.toList.head? = some '#' then some envVars
  else
    match envLineMatch line.toList with
    | none => some envVars
    | some (g1, g2) =>
      match cleanValue (goTrimSpace (String.mk g2)) with
      | none => none
      | some value =>
        some (insertGo envVars (goTrimSpace (String.mk g1)) value)

/-- Simple variant's `parseEnvFile` applied to the lines of a file. -/
def parseEnvFile (fileLines : List String) : Option (List (String × String)) :=
  fileLines.foldlM parseEnvStep []

/-- Simple variant's `displayEnvVars` (`--eval` preview): a banner line
followed by `KEY=VALUE` per entry, entries in map range order (modelled
as the list order). -/
def displayEnvVars (envVars : List (String × String)) : List String :=
  "Evaluated environment variables:" :: envVars.map (fun kv => kv.1 ++ "=" ++ kv.2)

/-- Simple variant's `--unset` output: one `unset KEY` line per key,
keys visited in map range order, supplied as the explicit `order`
parameter (Go map iteration order is unspecified). -/
def unsetOutput (order : List String) : List String :=
  order.map (fun k => "unset " ++ k)

end SimpleExportenv

/-- Value of a key taken from the first file map (in order) that defines
it; formalises which definition survives a first-wins merge. -/
def firstDef : List (List (String × String)) → String → Option String
  | [], _ => none
  | f :: fs, k => optOr (lookupGo f k) (firstDef fs k)

/-- Value of a key taken from the last file map (in order) that defines
it; formalises which definition survives a last-wins merge. -/
def lastDef (fileMaps : List (List (String × String))) (k : String) :
    Option String :=
  firstDef fileMaps.reverse k

/-! ### Lemmas about the Go-map model -/

theorem lookupGo_insertGo (m : List (String × String)) (k v k' : String) :
    lookupGo (insertGo m k v) k' = if k = k' then some v else lookupGo m k' := by
  induction m with
  | nil => simp [insertGo, lookupGo]
  | cons hd tl ih =>
    obtain ⟨k1, v1⟩ := hd
    by_cases h1 : k1 = k
    · subst h1
      by_cases h2 : k1 = k' <;> simp [insertGo, lookupGo, h2]
    · by_cases h2 : k1 = k'
      · subst h2
        have : ¬ k = k1 := fun h => h1 h.symm
        simp [insertGo, lookupGo, h1, this]
      · simp [insertGo, lookupGo, h1, h2, ih]

theorem lookupGo_eq_none_of_notMem (m : List (String × String)) (k : String)
    (h : k ∉ m.map Prod.fst) : lookupGo m k = none := by
  induction m with
  | nil => rfl
  | cons hd tl ih =>
    obtain ⟨k1, v1⟩ := hd
    simp only [List.map_cons, List.mem_cons] at h
    push_neg at h
    have h1 : k1 ≠ k := fun hh => h.1 hh.symm
    simp [lookupGo, h1, ih h.2]

theorem lookupGo_isSome_iff_mem (m : List (String × String)) (k : String) :
    (lookupGo m k).isSome = true ↔ k ∈ m.map Prod.fst := by
  induction m with
  | nil => simp [lookupGo]
  | cons hd tl ih =>
    obtain ⟨k1, v1⟩ := hd
    by_cases h1 : k1 = k
    · subst h1; simp [lookupGo]
    · have h1' : ¬ k = k1 := fun hh => h1 hh.symm
      simp [lookupGo, h1, h1', ih]

theorem map_fst_insertGo (m : List (String × String)) (k v : String) :
    (insertGo m k v).map Prod.fst =
      if k ∈ m.map Prod.fst then m.map Prod.fst else m.map Prod.fst ++ [k] := by
  induction m with
  | nil => simp [insertGo]
  | cons hd tl ih =>
    obtain ⟨k1, v1⟩ := hd
    by_cases h1 : k1 = k
    · subst h1; simp [insertGo]
    · have h1' : ¬ k = k1 := fun hh => h1 hh.symm
      by_cases h2 : k ∈ tl.map Prod.fst <;>
        simp [insertGo, h1, h1', h2, ih]

theorem nodup_map_fst_insertGo (m : List (String × String)) (k v : String)
    (h : (m.map Prod.fst).Nodup) : ((insertGo m k v).map Prod.fst).Nodup := by
  rw [map_fst_insertGo]
  by_cases h2 : k ∈ m.map Prod.fst
  · simpa [h2]
  · rw [if_neg h2]
    refine List.Nodup.append h (List.nodup_singleton k) ?_
    intro a ha hb
    simp only [List.mem_singleton] at hb
    subst hb
    exact h2 ha

theorem optOr_none_right (o : Option String) : optOr o none = o := by
  cases o <;> rfl

theorem optOr_assoc (a b c : Option String) :
    optOr (optOr a b) c = optOr a (optOr b c) := by
  cases a <;> cases b <;> rfl

/-! ### Claim C1: merge policy across multiple files -/

theorem mergeFileVars_false_lookup (f : List (String × String))
    (env : List (String × String)) (k : String) :
    lookupGo (Exportenv.mergeFileVars false env f) k =
      optOr (lookupGo env k) (lookupGo f k) := by
  induction f generalizing env with
  | nil => simp [Exportenv.mergeFileVars, optOr_none_right, lookupGo]
  | cons hd tl ih =>
    obtain ⟨k1, v1⟩ := hd
    have hstep : Exportenv.mergeFileVars false env ((k1, v1) :: tl) =
        Exportenv.mergeFileVars false (Exportenv.mergeStep false env (k1, v1)) tl := rfl
    rw [hstep, ih]
    by_cases hex : (lookupGo env k1).isSome = true
    · obtain ⟨w, hw⟩ := Option.isSome_iff_exists.mp hex
      have : Exportenv.mergeStep false env (k1, v1) = env := by
        simp [Exportenv.mergeStep, Exportenv.existsInMap, hex]
      rw [this]
      by_cases h1 : k1 = k
      · subst h1; simp [lookupGo, hw, optOr]
      · simp [lookupGo, h1]
    · have hnone : lookupGo env k1 = none := by
        cases hln : lookupGo env k1 with
        | none => rfl
        | some w => rw [hln] at hex; simp at hex
      have : Exportenv.mergeStep false env (k1, v1) = insertGo env k1 v1 := by
        simp [Exportenv.mergeStep, Exportenv.existsInMap, hnone]
      rw [this]
      by_cases h1 : k1 = k
      · subst h1
        simp [lookupGo_insertGo, hnone, lookupGo, optOr]
      · simp [lookupGo_insertGo, h1, lookupGo]

theorem mergeFileVars_true_lookup (f : List (String × String))
    (env : List (String × String)) (k : String)
    (hnd : (f.map Prod.fst).Nodup) :
    lookupGo (Exportenv.mergeFileVars true env f) k =
      optOr (lookupGo f k) (lookupGo env k) := by
  induction f generalizing env with
  | nil => simp [Exportenv.mergeFileVars, lookupGo, optOr]
  | cons hd tl ih =>
    obtain ⟨k1, v1⟩ := hd
    simp only [List.map_cons, List.nodup_cons] at hnd
    have hstep : Exportenv.mergeFileVars true env ((k1, v1) :: tl) =
        Exportenv.mergeFileVars true (insertGo env k1 v1) tl := by
      simp [Exportenv.mergeFileVars, Exportenv.mergeStep, List.foldl_cons]
    rw [hstep, ih _ hnd.2]
    by_cases h1 : k1 = k
    · subst h1
      have : lookupGo tl k1 = none :=
        lookupGo_eq_none_of_notMem _ _ hnd.1
      simp [this, lookupGo_insertGo, lookupGo, optOr]
    · simp [lookupGo_insertGo, h1, lookupGo]

theorem firstDef_append (xs ys : List (List (String × String))) (k : String) :
    firstDef (xs ++ ys) k = optOr (firstDef xs k) (firstDef ys k) := by
  induction xs with
  | nil => simp [firstDef, optOr]
  | cons hd tl ih => simp [firstDef, ih, optOr_assoc]

theorem loadEnvFilesMerge_false_general (fs : List (List (String × String)))
    (env : List (String × String)) (k : String) :
    lookupGo (fs.foldl (Exportenv.mergeFileVars false) env) k =
      optOr (lookupGo env k) (firstDef fs k) := by
  induction fs generalizing env with
  | nil => simp [firstDef, optOr_none_right]
  | cons hd tl ih =>
    simp only [List.foldl_cons]
    rw [ih, mergeFileVars_false_lookup, firstDef, optOr_assoc]

theorem loadEnvFilesMerge_true_general (fs : List (List (String × String)))
    (env : List (String × String)) (k : String)
    (hnd : ∀ f ∈ fs, (f.map Prod.fst).Nodup) :
    lookupGo (fs.foldl (Exportenv.mergeFileVars true) env) k =
      optOr (lastDef fs k) (lookupGo env k) := by
  induction fs generalizing env with
  | nil => simp [lastDef, firstDef, optOr]
  | cons hd tl ih =>
    simp only [List.foldl_cons]
    have hl : lastDef (hd :: tl) k = optOr (lastDef tl k) (lookupGo hd k) := by
      simp only [lastDef, List.reverse_cons, firstDef_append, firstDef,
        optOr_none_right]
    rw [ih _ (fun f hf => hnd f (List.mem_cons_of_mem _ hf)),
      mergeFileVars_true_lookup _ _ _ (hnd hd (List.mem_cons_self _ _)), hl,
      optOr_assoc]

/-- Claim C1: in the multi-file merge, with `override = false` a key gets
the value from the first file (in order) that defines it; with
`override = true` it gets the value from the last file that defines it.
Each per-file map is given as its bindings in Go-map range order, so its
keys are pairwise distinct. -/
theorem loadEnvFilesMerge_override_first_last
    (fileMaps : List (List (String × String))) (k : String)
    (hnd : ∀ f ∈ fileMaps, (f.map Prod.fst).Nodup) :
    lookupGo (Exportenv.loadEnvFilesMerge false fileMaps) k = firstDef fileMaps k ∧
    lookupGo (Exportenv.loadEnvFilesMerge true fileMaps) k = lastDef fileMaps k := by
  constructor
  · rw [Exportenv.loadEnvFilesMerge, loadEnvFilesMerge_false_general]
    simp [lookupGo, optOr]
  · rw [Exportenv.loadEnvFilesMerge, loadEnvFilesMerge_true_general _ _ _ hnd]
    simp [lookupGo, optOr_none_right]

/-- Witness for C1 at the claim's example: files `F1` with `A=1` and `F2`
with `A=2`, merged value of `A` is `1` without override and `2` with it. -/
theorem loadEnvFilesMerge_override_first_last_witness :
    (∀ f ∈ [[("A", "1")], [("A", "2")]], (f.map Prod.fst).Nodup) ∧
    lookupGo (Exportenv.loadEnvFilesMerge false [[("A", "1")], [("A", "2")]]) "A" =
      some "1" ∧
    lookupGo (Exportenv.loadEnvFilesMerge true [[("A", "1")], [("A", "2")]]) "A" =
      some "2" := by
  refine ⟨by decide, ?_⟩
  have h := loadEnvFilesMerge_override_first_last
    [[("A", "1")], [("A", "2")]] "A" (by decide)
  refine ⟨h.1.trans (by decide), h.2.trans (by decide)⟩

/-! ### Claim C2: command-line variables always win -/

theorem mergeEnvVars_lookup_notMem (cmd env : List (String × String))
    (k : String) (h : k ∉ cmd.map Prod.fst) :
    lookupGo (Exportenv.mergeEnvVars env cmd) k = lookupGo env k := by
  induction cmd generalizing env with
  | nil => rfl
  | cons hd tl ih =>
    obtain ⟨k1, v1⟩ := hd
    simp only [List.map_cons, List.mem_cons, not_or] at h
    have hstep : Exportenv.mergeEnvVars env ((k1, v1) :: tl) =
        Exportenv.mergeEnvVars (insertGo env k1 v1) tl := rfl
    rw [hstep, ih _ h.2, lookupGo_insertGo, if_neg (fun hh => h.1 hh.symm)]

theorem mergeEnvVars_lookup_of_nodup (cmd : List (String × String))
    (env : List (String × String)) (k v : String)
    (hnd : (cmd.map Prod.fst).Nodup) (hk : lookupGo cmd k = some v) :
    lookupGo (Exportenv.mergeEnvVars env cmd) k = some v := by
  induction cmd generalizing env with
  | nil => simp [lookupGo] at hk
  | cons hd tl ih =>
    obtain ⟨k1, v1⟩ := hd
    simp only [List.map_cons, List.nodup_cons] at hnd
    have hstep : Exportenv.mergeEnvVars env ((k1, v1) :: tl) =
        Exportenv.mergeEnvVars (insertGo env k1 v1) tl := rfl
    rw [hstep]
    by_cases h1 : k1 = k
    · subst h1
      have hv : v1 = v := by simpa [lookupGo] using hk
      rw [mergeEnvVars_lookup_notMem _ _ _ hnd.1, lookupGo_insertGo,
        if_pos rfl, hv]
    · have hk' : lookupGo tl k = some v := by simpa [lookupGo, h1] using hk
      exact ih _ hnd.2 hk'

theorem parseCommandLineVars_nodup (vars : List String) :
    ((Exportenv.parseCommandLineVars vars).map Prod.fst).Nodup := by
  suffices h : ∀ acc : List (String × String), (acc.map Prod.fst).Nodup →
      ((vars.foldl (fun acc v =>
        match v.toList.findIdx? (· == '=') with
        | some p => insertGo acc (String.mk (v.toList.take p))
            (String.mk (v.toList.drop (p + 1)))
        | none => insertGo acc v "") acc).map Prod.fst).Nodup by
    exact h [] (by simp)
  induction vars with
  | nil => intro acc hacc; simpa using hacc
  | cons hd tl ih =>
    intro acc hacc
    simp only [List.foldl_cons]
    cases hd.toList.findIdx? (· == '=') with
    | none => exact ih _ (nodup_map_fst_insertGo _ _ _ hacc)
    | some p => exact ih _ (nodup_map_fst_insertGo _ _ _ hacc)

/-- Claim C2: after the pipeline merges the parsed files (under either
override policy) and then the `-v` command-line pairs, every
command-line-supplied key holds its command-line value. -/
theorem cmdlineVars_take_precedence (override : Bool)
    (fileMaps : List (List (String × String))) (vars : List String)
    (k v : String)
    (h : lookupGo (Exportenv.parseCommandLineVars vars) k = some v) :
    lookupGo (Exportenv.mergeEnvVars (Exportenv.loadEnvFilesMerge override fileMaps)
      (Exportenv.parseCommandLineVars vars)) k = some v :=
  mergeEnvVars_lookup_of_nodup _ _ _ _ (parseCommandLineVars_nodup vars) h

/-- Witness for C2 at the claim's example: `-v A=3` yields merged `A=3`
even though a file defines `A=1` (override on). -/
theorem cmdlineVars_take_precedence_witness :
    lookupGo (Exportenv.parseCommandLineVars ["A=3"]) "A" = some "3" ∧
    lookupGo (Exportenv.mergeEnvVars
      (Exportenv.loadEnvFilesMerge true [[("A", "1")]])
      (Exportenv.parseCommandLineVars ["A=3"])) "A" = some "3" :=
  ⟨by decide, cmdlineVars_take_precedence true [[("A", "1")]] ["A=3"] "A" "3"
    (by decide)⟩

/-! ### Claim C7: a fatal read error yields no output at all -/

theorem loadEnvFilesGo_error (fs : String → Except String (List String))
    (files : List String) (override : Bool) (acc : List (String × String))
    (p : String) (e : String) (hp : p ∈ files) (he : fs p = Except.error e) :
    ∃ e', Exportenv.loadEnvFilesGo fs files override acc = Except.error e' := by
  induction files generalizing acc with
  | nil => cases hp
  | cons f rest ih =>
    cases hf : fs f with
    | error e'' => exact ⟨e'', by simp [Exportenv.loadEnvFilesGo, hf]⟩
    | ok fileLines =>
      rcases List.mem_cons.mp hp with h | h
      · subst h; rw [hf] at he; cases he
      · obtain ⟨e', he'⟩ := ih
          (Exportenv.mergeFileVars override acc (Exportenv.parseEnvFile fileLines)) h
        exact ⟨e', by simp [Exportenv.loadEnvFilesGo, hf, he']⟩

/-- Claim C7: if any file in the given list cannot be read, `main`
reports the load error and emits no export output at all — in
particular no partial output from files earlier in the list. -/
theorem mainRun_fatal_error_no_output (fs : String → Except String (List String))
    (files : List String) (override noExpand : Bool) (vars : List String)
    (p e : String) (hp : p ∈ files) (he : fs p = Except.error e) :
    ∃ e', Exportenv.mainRun fs files override noExpand vars = Except.error e' := by
  have hne : files.isEmpty = false := by
    cases files with
    | nil => cases hp
    | cons f rest => rfl
  have h := loadEnvFilesGo_error fs files override [] p e hp he
  obtain ⟨e', he'⟩ := h
  refine ⟨e', ?_⟩
  rw [Exportenv.mainRun, Exportenv.loadEnvFiles, hne]
  simp only [Bool.false_eq_true, if_false, he']

/-- Witness for C7: the second of two files fails to read, and the run
errors out with no export lines even though the first file parsed. -/
theorem mainRun_fatal_error_no_output_witness :
    ("bad" ∈ ["good", "bad"] ∧
      (fun p => if p = "bad" then Except.error "boom"
        else Except.ok ["A=1"]) "bad" = (Except.error "boom" : Except String (List String))) ∧
    ∃ e', Exportenv.mainRun
      (fun p => if p = "bad" then Except.error "boom" else Except.ok ["A=1"])
      ["good", "bad"] false false [] = Except.error e' :=
  ⟨⟨by decide, rfl⟩,
    mainRun_fatal_error_no_output _ ["good", "bad"] false false [] "bad" "boom"
      (by decide) rfl⟩

/-! ### Claim C3: malformed lines in the multi-file variant -/

/-- Claim C3 evaluation: in the multi-file variant, a line that does not
match the key/value grammar is not skipped; because `parseEnvFile`
stores the key/value pair returned by `parseLine` without checking that
the regexp matched, the zero-value pair is stored and the map gains a
binding of the empty key to the empty value. -/
theorem parseEnvFile_malformed_line_stores_empty_key :
    Exportenv.parseEnvFile ["invalid line"] = [("", "")] ∧
    lookupGo (Exportenv.parseEnvFile ["invalid line"]) "" = some "" := by
  constructor <;> decide

/-! ### Claim C4: escaped quotes in single-line quoted values -/

/-- Claim C4 evaluation: for the line `KEY="a\"b"` the multi-file
variant's `parseLine` strips the surrounding quotes but keeps the
backslash of the escaped quote, yielding `a\"b` rather than the claimed
`a"b`; the simple variant's `cleanValue` does unescape it. -/
theorem parseLine_keeps_escaped_quote :
    Exportenv.parseLine "KEY=\"a\\\"b\"" =
      ⟨"KEY", "a\\\"b", false, charNul⟩ ∧
    ("a\\\"b" : String) ≠ "a\"b" ∧
    SimpleExportenv.cleanValue "\"a\\\"b\"" = some "a\"b" := by
    refine ⟨by decide, by decide, by decide⟩

/-! ### Claim C5: expansion of double-quoted values during parsing -/

/-- Claim C5 evaluation: the double-quote branch of `parseEnvFile` never
fires because `parseLine` reports the zero rune as quote type for every
completed (non-multiline) line; the double-quoted value `"${A}bar\nbaz"`
is stored verbatim, with no `${A}` expansion and no newline
substitution, instead of the claimed `foobar`, newline, `baz`. -/
theorem parseEnvFile_double_quoted_not_expanded :
    Exportenv.parseEnvFile ["A=foo", "B=\"${A}bar\\nbaz\""] =
      [("A", "foo"), ("B", "${A}bar\\nbaz")] ∧
    ("${A}bar\\nbaz" : String) ≠ "foobar\nbaz" := by
  refine ⟨by decide, by decide⟩

/-! ### Claim C6: unset-mode output order -/

/-- Counterexample to C6: the simple variant emits `unset` lines by
ranging over the Go map, whose iteration order is unspecified; for a
file defining `A` and `B` the order visiting `B` first is an admissible
range order, and the resulting output is not the claimed sorted
sequence `unset A`, `unset B`. -/
theorem unsetOutput_not_sorted_counterexample :
    SimpleExportenv.parseEnvFile ["A=1", "B=2"] = some [("A", "1"), ("B", "2")] ∧
    ["B", "A"].Perm (([("A", "1"), ("B", "2")] : List (String × String)).map Prod.fst) ∧
    SimpleExportenv.unsetOutput ["B", "A"] ≠ ["unset A", "unset B"] := by
  refine ⟨by decide, by decide, by decide⟩

/-- Claim C6 as amended: unset-mode output has exactly one line
`unset KEY` per key of the final map, with no values, but in the map's
range order, which need not be sorted. -/
theorem unsetOutput_one_line_per_key (envVars : List (String × String))
    (order : List String) (h : order.Perm (envVars.map Prod.fst)) :
    (SimpleExportenv.unsetOutput order).Perm
      ((envVars.map Prod.fst).map (fun k => "unset " ++ k)) ∧
    ∀ l ∈ SimpleExportenv.unsetOutput order,
      ∃ k ∈ envVars.map Prod.fst, l = "unset " ++ k := by
  constructor
  · exact h.map _
  · intro l hl
    simp only [SimpleExportenv.unsetOutput, List.mem_map] at hl
    obtain ⟨k, hk, rfl⟩ := hl
    exact ⟨k, h.mem_iff.mp hk, rfl⟩

/-- Witness for the amended C6 on a concrete map and range order. -/
theorem unsetOutput_one_line_per_key_witness :
    (["B", "A"].Perm (([("A", "1"), ("B", "2")] : List (String × String)).map Prod.fst)) ∧
    (SimpleExportenv.unsetOutput ["B", "A"]).Perm
      ((([("A", "1"), ("B", "2")] : List (String × String)).map Prod.fst).map
        (fun k => "unset " ++ k)) :=
  ⟨by decide,
    (unsetOutput_one_line_per_key [("A", "1"), ("B", "2")] ["B", "A"] (by decide)).1⟩

/-! ### Claim C9: order dependence of the post-merge expansion pass -/

/-- Counterexample to C9: for the map `A=${B}`, `B=${C}`, `C=x` the
expansion pass gives different results under two admissible map
iteration orders, so the pass is not deterministic in the claimed
sense. -/
theorem expandEnvVars_order_dependent :
    (["A", "B", "C"].Perm
      (([("A", "${B}"), ("B", "${C}"), ("C", "x")] : List (String × String)).map Prod.fst) ∧
     ["B", "A", "C"].Perm
      (([("A", "${B}"), ("B", "${C}"), ("C", "x")] : List (String × String)).map Prod.fst)) ∧
    Exportenv.expandEnvVars ["A", "B", "C"] [("A", "${B}"), ("B", "${C}"), ("C", "x")] ≠
      Exportenv.expandEnvVars ["B", "A", "C"] [("A", "${B}"), ("B", "${C}"), ("C", "x")] := by
  refine ⟨⟨by decide, by decide⟩, by decide⟩

/-- Claim C9 as amended: the expansion pass expands each value once
against the current map state in iteration order, so for chained
references the result depends on that order: visiting `A` first leaves
`A = ${C}` (the not-yet-expanded value of `B`), while visiting `B`
first gives `A = x`. -/
theorem expandEnvVars_single_pass_results :
    Exportenv.expandEnvVars ["A", "B", "C"] [("A", "${B}"), ("B", "${C}"), ("C", "x")] =
      [("A", "${C}"), ("B", "x"), ("C", "x")] ∧
    Exportenv.expandEnvVars ["B", "A", "C"] [("A", "${B}"), ("B", "${C}"), ("C", "x")] =
      [("A", "x"), ("B", "x"), ("C", "x")] := by
  refine ⟨by decide, by decide⟩

/-! ### Claim C10: totality of the simple variant's `cleanValue` -/

/-- Counterexample to C10: on the one-character input consisting of a
lone double quote, the quote-stripping condition holds with both byte
indices naming the same character, and the Go slice `value[1:0]` is out
of bounds — `cleanValue` panics instead of returning a result. -/
theorem cleanValue_lone_quote_panics :
    SimpleExportenv.cleanValue (String.mk [charDQ]) = none := by decide

/-- Claim C10 as amended: `cleanValue` returns a result for every input
except those whose trimmed form is a single quote character (double
quote, apostrophe or backtick), on which the slice `value[1:len-1]`
panics. -/
theorem cleanValue_total_except_lone_quote (s : String) :
    (SimpleExportenv.cleanValue s).isSome = true ↔
      ¬ (trimChars s.toList = [charDQ] ∨ trimChars s.toList = [charApos] ∨
         trimChars s.toList = [charBacktick]) := by
  unfold SimpleExportenv.cleanValue
  rcases hc : trimChars s.toList with _ | ⟨c, _ | ⟨c2, t2⟩⟩
  · simp
  · by_cases hq : (c = charDQ ∧ c = charDQ) ∨ (c = charApos ∧ c = charApos) ∨
        (c = charBacktick ∧ c = charBacktick)
    · have h2 : ¬ (2 ≤ ([c] : List Char).length) := by simp
      simp only [List.headD_cons, List.getLastD_cons, List.getLastD_nil]
      rw [if_neg (by simp), if_pos hq, if_neg h2]
      simp only [Option.isSome_none, Bool.false_eq_true, false_iff, not_not]
      rcases hq with ⟨h, _⟩ | ⟨h, _⟩ | ⟨h, _⟩
      · exact Or.inl (by rw [h])
      · exact Or.inr (Or.inl (by rw [h]))
      · exact Or.inr (Or.inr (by rw [h]))
    · simp only [List.headD_cons, List.getLastD_cons, List.getLastD_nil]
      rw [if_neg (by simp), if_neg hq]
      simp only [Option.isSome_some, true_iff]
      intro hcontra
      apply hq
      rcases hcontra with h | h | h <;>
        rw [List.cons.injEq] at h <;> simp [h.1]
  · by_cases hq : ((c :: c2 :: t2).headD charNul = charDQ ∧
          (c :: c2 :: t2).getLastD charNul = charDQ) ∨
        ((c :: c2 :: t2).headD charNul = charApos ∧
          (c :: c2 :: t2).getLastD charNul = charApos) ∨
        ((c :: c2 :: t2).headD charNul = charBacktick ∧
          (c :: c2 :: t2).getLastD charNul = charBacktick)
    · rw [if_neg (by simp)]
      dsimp only
      rw [if_pos hq, if_pos (show 2 ≤ (c :: c2 :: t2).length by
        simp [List.length_cons])]
      simp only [Option.isSome_some, true_iff]
      intro hcontra
      rcases hcontra with h | h | h <;> simp at h
    · rw [if_neg (by simp)]
      dsimp only
      rw [if_neg hq]
      simp only [Option.isSome_some, true_iff]
      intro hcontra
      rcases hcontra with h | h | h <;> simp at h

/-! ### Claim C8: parse / preview-format round trip (simple variant) -/

theorem mem_of_head?_eq {l : List Char} {c : Char} (h : l.head? = some c) :
    c ∈ l := by
  cases l with
  | nil => cases h
  | cons a t =>
    simp only [List.head?_cons, Option.some.injEq] at h
    exact h ▸ List.mem_cons_self a t

theorem dropWhile_eq_self_of_head (p : Char → Bool) (l : List Char)
    (h : ∀ c, l.head? = some c → p c = false) : l.dropWhile p = l := by
  cases l with
  | nil => rfl
  | cons a t => simp [List.dropWhile_cons, h a rfl]

theorem trimChars_eq_self (l : List Char)
    (h1 : ∀ c, l.head? = some c → goIsSpace c = false)
    (h2 : ∀ c, l.getLast? = some c → goIsSpace c = false) :
    trimChars l = l := by
  unfold trimChars
  rw [dropWhile_eq_self_of_head _ _ h1,
    dropWhile_eq_self_of_head _ _ (fun c hc => h2 c (by rwa [List.head?_reverse] at hc)),
    List.reverse_reverse]

theorem findIdx?_append_cons (p : Char → Bool) (k : List Char) (x : Char)
    (v : List Char) (hk : ∀ c ∈ k, p c = false) (hx : p x = true) :
    (k ++ x :: v).findIdx? p = some k.length := by
  induction k with
  | nil => simp [List.findIdx?_cons, hx]
  | cons a t ih =>
    have ha : p a = false := hk a (List.mem_cons_self a t)
    have ht : ∀ c ∈ t, p c = false := fun c hc => hk c (List.mem_cons_of_mem a hc)
    simp [List.findIdx?_cons, ha, ih ht]

theorem head?_dropWhile_mem (p : Char → Bool) (l : List Char) (c : Char)
    (h : (l.dropWhile p).head? = some c) : c ∈ l := by
  induction l with
  | nil => cases h
  | cons a t ih =>
    by_cases hp : p a = true
    · rw [List.dropWhile_cons, if_pos hp] at h
      exact List.mem_cons_of_mem a (ih h)
    · rw [List.dropWhile_cons, if_neg hp, List.head?_cons,
        Option.some.injEq] at h
      exact h ▸ List.mem_cons_self a t

theorem group2_eq_self_of_no_hash (l : List Char)
    (h : ∀ c ∈ l, c ≠ '#') : SimpleExportenv.group2 l = l := by
  induction l with
  | nil => rfl
  | cons c t ih =>
    have hcond : ¬ (((c :: t).dropWhile goIsSpace).head? = some '#') := by
      intro hcontra
      exact h '#' (head?_dropWhile_mem _ _ _ hcontra) rfl
    rw [SimpleExportenv.group2, if_neg hcond,
      ih (fun c hc => h c (List.mem_cons_of_mem _ hc))]

theorem replacePair_eq_self (a b rep : Char) (l : List Char)
    (h : ∀ c ∈ l, c ≠ a) : replacePair a b rep l = l := by
  induction l with
  | nil => rfl
  | cons x t ih =>
    cases t with
    | nil => rfl
    | cons y t2 =>
      have hx : ¬ (x = a ∧ y = b) := fun hc =>
        h x (List.mem_cons_self _ _) hc.1
      rw [replacePair, if_neg hx, ih (fun c hc => h c (List.mem_cons_of_mem _ hc))]

theorem isKeyChar_not_space (c : Char) (h : Exportenv.isKeyChar c = true) :
    goIsSpace c = false := by
  cases hs : goIsSpace c with
  | false => rfl
  | true =>
    exfalso
    simp only [goIsSpace, Bool.or_eq_true, beq_iff_eq] at hs
    rcases hs with ((((h1 | h1) | h1) | h1) | h1) | h1 <;>
      (subst h1; exact absurd h (by decide))

theorem isKeyChar_ne (c : Char) (h : Exportenv.isKeyChar c = true) :
    c ≠ '=' ∧ c ≠ '#' ∧ c ≠ charDQ ∧ c ≠ charApos ∧ c ≠ charBacktick ∧
      c ≠ charBackslash := by
  refine ⟨?_, ?_, ?_, ?_, ?_, ?_⟩ <;>
    (intro heq; subst heq; exact absurd h (by decide))

theorem mem_of_getLast?_eq {l : List Char} {c : Char}
    (h : l.getLast? = some c) : c ∈ l := by
  have h' : l.reverse.head? = some c := by rwa [List.head?_reverse]
  exact List.mem_reverse.mp (mem_of_head?_eq h')

/-- Unfolding of `String.toList` on an explicit character list. -/
theorem toList_mk (l : List Char) : (String.mk l).toList = l := rfl

/-- Claim C8: a valid line `KEY=VALUE` whose key matches
`[A-Za-z_][A-Za-z0-9_]*` and whose value is already trimmed and contains
no quote, backslash or `#`, parses in the simple variant to exactly the
binding `(KEY, VALUE)`, and preview mode renders that binding back as
the original line (after its banner line). -/
theorem parse_preview_roundtrip (key value : String)
    (hne : key.toList ≠ [])
    (hstart : ∀ c, key.toList.head? = some c → Exportenv.isKeyStart c = true)
    (hkey : ∀ c ∈ key.toList, Exportenv.isKeyChar c = true)
    (hval : ∀ c ∈ value.toList, c ≠ charDQ ∧ c ≠ charApos ∧ c ≠ charBacktick ∧
      c ≠ charBackslash ∧ c ≠ '#')
    (hvh : ∀ c, value.toList.head? = some c → goIsSpace c = false)
    (hvl : ∀ c, value.toList.getLast? = some c → goIsSpace c = false) :
    SimpleExportenv.parseEnvFile [key ++ "=" ++ value] = some [(key, value)] ∧
    SimpleExportenv.displayEnvVars [(key, value)] =
      ["Evaluated environment variables:", key ++ "=" ++ value] := by
  obtain ⟨k⟩ := key
  obtain ⟨v⟩ := value
  have hneL : k ≠ [] := hne
  have hkeyL : ∀ c ∈ k, Exportenv.isKeyChar c = true := hkey
  have hvalL : ∀ c ∈ v, c ≠ charDQ ∧ c ≠ charApos ∧ c ≠ charBacktick ∧
      c ≠ charBackslash ∧ c ≠ '#' := hval
  have hvhL : ∀ c, v.head? = some c → goIsSpace c = false := hvh
  have hvlL : ∀ c, v.getLast? = some c → goIsSpace c = false := hvl
  clear hne hstart hkey hval hvh hvl
  cases k with
  | nil => exact absurd rfl hneL
  | cons kh kt =>
  have hkhead : Exportenv.isKeyChar kh = true :=
    hkeyL kh (List.mem_cons_self _ _)
  -- the whole line at the character level
  have hline : (String.mk (kh :: kt) ++ "=" ++ String.mk v).toList =
      (kh :: kt) ++ '=' :: v := by
    have h1 : (String.mk (kh :: kt) ++ "=" ++ String.mk v).toList =
        ((kh :: kt) ++ ['=']) ++ v := rfl
    rw [h1, List.append_assoc]
    rfl
  -- trimming the line is the identity
  have htrim : trimChars ((kh :: kt) ++ '=' :: v) = (kh :: kt) ++ '=' :: v := by
    refine trimChars_eq_self _ ?_ ?_
    · intro c hc
      simp only [List.cons_append, List.head?_cons, Option.some.injEq] at hc
      rw [← hc]
      exact isKeyChar_not_space _ hkhead
    · intro c hc
      rw [List.getLast?_append_of_ne_nil _ (List.cons_ne_nil '=' v)] at hc
      cases v with
      | nil =>
        simp only [List.getLast?_singleton, Option.some.injEq] at hc
        subst hc
        decide
      | cons vh vt =>
        rw [List.getLast?_cons_cons] at hc
        exact hvlL c hc
  have htrimline : goTrimSpace (String.mk (kh :: kt) ++ "=" ++ String.mk v) =
      String.mk ((kh :: kt) ++ '=' :: v) := by
    unfold goTrimSpace
    rw [hline, htrim]
  -- the regexp submatches
  have hfind : ((kh :: kt) ++ '=' :: v).findIdx? (· == '=') =
      some (kh :: kt).length := by
    refine findIdx?_append_cons _ _ _ _ ?_ rfl
    intro c hc
    simp only [beq_eq_false_iff_ne]
    exact (isKeyChar_ne c (hkeyL c hc)).1
  have htake : ((kh :: kt) ++ '=' :: v).take (kh :: kt).length = kh :: kt :=
    List.take_left _ _
  have hdrop : ((kh :: kt) ++ '=' :: v).drop ((kh :: kt).length + 1) = v := by
    rw [← List.drop_drop, List.drop_left]
    rfl
  have hnohash : ((kh :: kt).any (· == '#')) = false := by
    rw [List.any_eq_false]
    intro c hc
    simp only [beq_iff_eq]
    exact (isKeyChar_ne c (hkeyL c hc)).2.1
  have hlead : ((kh :: kt) ++ '=' :: v).takeWhile goIsSpace = [] := by
    rw [List.cons_append, List.takeWhile_cons,
      if_neg (by rw [isKeyChar_not_space _ hkhead]; exact Bool.false_ne_true)]
  have hdw : v.dropWhile goIsSpace = v := dropWhile_eq_self_of_head _ _ hvhL
  have hg2 : SimpleExportenv.group2 v = v :=
    group2_eq_self_of_no_hash v (fun c hc => (hvalL c hc).2.2.2.2)
  have hmatch : SimpleExportenv.envLineMatch ((kh :: kt) ++ '=' :: v) =
      some (kh :: kt, v) := by
    unfold SimpleExportenv.envLineMatch
    rw [hfind]
    dsimp only
    rw [if_neg (by simp),
      if_neg (by rw [htake, hnohash]; exact Bool.false_ne_true), hlead]
    simp only [List.length_nil, Nat.zero_min, List.drop_zero, htake, hdrop,
      hdw, hg2]
  -- trimming the key and the value is the identity
  have htrimk : trimChars (kh :: kt) = kh :: kt := by
    refine trimChars_eq_self _ ?_ ?_
    · intro c hc
      simp only [List.head?_cons, Option.some.injEq] at hc
      subst hc
      exact isKeyChar_not_space _ hkhead
    · intro c hc
      exact isKeyChar_not_space _ (hkeyL c (mem_of_getLast?_eq hc))
  have htrimv : trimChars v = v := trimChars_eq_self _ hvhL hvlL
  -- cleanValue is the identity on the value
  have hclean : SimpleExportenv.cleanValue (goTrimSpace (String.mk v)) =
      some (String.mk v) := by
    unfold goTrimSpace SimpleExportenv.cleanValue
    simp only [toList_mk, htrimv]
    cases v with
    | nil => rfl
    | cons vh vt =>
      have hbs : ∀ c ∈ vh :: vt, c ≠ charBackslash :=
        fun c hc => (hvalL c hc).2.2.2.1
      rw [if_neg (by simp)]
      rw [if_neg ?hq]
      case hq =>
        intro hcontra
        rcases hcontra with ⟨h1, _⟩ | ⟨h1, _⟩ | ⟨h1, _⟩ <;>
          simp only [List.headD_cons] at h1
        · exact (hvalL vh (List.mem_cons_self _ _)).1 h1
        · exact (hvalL vh (List.mem_cons_self _ _)).2.1 h1
        · exact (hvalL vh (List.mem_cons_self _ _)).2.2.1 h1
      dsimp only
      rw [htrimv, replacePair_eq_self _ _ _ _ hbs,
        replacePair_eq_self _ _ _ _ hbs, replacePair_eq_self _ _ _ _ hbs]
  -- one parse step stores exactly the claimed binding
  have hkeytrim : goTrimSpace (String.mk (kh :: kt)) = String.mk (kh :: kt) := by
    unfold goTrimSpace
    rw [toList_mk, htrimk]
  have hstep : SimpleExportenv.parseEnvStep []
      (String.mk (kh :: kt) ++ "=" ++ String.mk v) =
      some [(String.mk (kh :: kt), String.mk v)] := by
    unfold SimpleExportenv.parseEnvStep
    dsimp only
    rw [htrimline, toList_mk]
    rw [if_neg ?hguard]
    case hguard =>
      intro hcontra
      rcases hcontra with h | h
      · simp at h
      · rw [List.cons_append, List.head?_cons] at h
        simp only [Option.some.injEq] at h
        exact (isKeyChar_ne kh hkhead).2.1 h
    rw [hmatch]
    dsimp only
    rw [hkeytrim, hclean]
    rfl
  refine ⟨?_, rfl⟩
  unfold SimpleExportenv.parseEnvFile
  simp only [List.foldlM, hstep, Option.bind_eq_bind, Option.some_bind]
  rfl

/-- Witness for C8 at the concrete line `A=b c`: parse then
preview-format round-trips the line. -/
theorem parse_preview_roundtrip_witness :
    SimpleExportenv.parseEnvFile ["A" ++ "=" ++ "b c"] = some [("A", "b c")] ∧
    SimpleExportenv.displayEnvVars [("A", "b c")] =
      ["Evaluated environment variables:", "A" ++ "=" ++ "b c"] := by
  have hA : ∀ c ∈ ("A" : String).toList, Exportenv.isKeyStart c = true := by
    decide
  have hvh : ∀ c, ("b c" : String).toList.head? = some c →
      goIsSpace c = false := by
    intro c hc
    have h2 : some 'b' = some c := hc
    simp only [Option.some.injEq] at h2
    subst h2
    decide
  have hvl : ∀ c, ("b c" : String).toList.getLast? = some c →
      goIsSpace c = false := by
    intro c hc
    have h2 : some 'c' = some c := hc
    simp only [Option.some.injEq] at h2
    subst h2
    decide
  exact parse_preview_roundtrip "A" "b c" (by decide)
    (fun c hc => hA c (mem_of_head?_eq hc))
    (by decide)
    (by decide)
    hvh
    hvl
